import Mathlib

/-!
# A shallow embedding of the E20 simulator (`sim.py`)

The simulator holds a machine state (program counter, eight registers, a
2^15-word memory), fetches the word at `pc`, renders it as the Python string
`bin(word)[2:].zfill(16)`, dispatches on its leading characters to one of five
instruction handlers, and loops until a self-jump is detected.

Python integers are unbounded and may be negative, so registers, memory cells
and the pc are modelled as `Int`.  Python list indexing `xs[i]` accepts
`-len xs ≤ i < len xs`, wrapping negative indices from the end, and raises
`IndexError` otherwise; `pyGet`/`pySet` model this.  Python `%` on a positive
modulus agrees with `Int.emod`, and Python's bitwise `&`/`|` on arbitrary ints
(two's complement) are modelled by `pyAnd`/`pyOr`.
-/

namespace E20

def NUM_REGS : Nat := 8

def MEM_SIZE : Nat := 2 ^ 15

def REG_SIZE : Nat := 2 ^ 16

/-- Number of binary digits of `n` (the length of Python's `bin(n)[2:]` for
`n ≥ 1`), computed with explicit fuel so that it reduces definitionally.
The first argument is fuel; it is always called as `bitlen n n`. -/
def bitlen : Nat → Nat → Nat
  | 0, _ => 0
  | f + 1, n => if n = 0 then 0 else bitlen f (n / 2) + 1

/-- Length of the string `bin(w)[2:].zfill(16)` for a nonnegative word `w`:
16 characters, unless `w ≥ 2^16` needs more binary digits. -/
def slen (w : Nat) : Nat := max 16 (bitlen w w)

/-- Value of `int(instr[a:b], 2)` where `instr = bin(w)[2:].zfill(16)`: the characters
at positions `a ≤ _ < b` (from the most significant end) read as binary. -/
def field (w a b : Nat) : Nat := w / 2 ^ (slen w - b) % 2 ^ (b - a)

/-- Value of `int(instr[-4:], 2)`: the last four characters, i.e. the low 4 bits. -/
def low4 (w : Nat) : Nat := w % 16

/-- A 3-bit register-index field starting at character `a`, as a `Fin 8`
(register indices extracted by the handlers are always in range). -/
def fin3 (w a : Nat) : Fin NUM_REGS := ⟨field w a (a + 3) % 8, Nat.mod_lt _ (by norm_num)⟩

/-- The signed 7-bit immediate shared by `tworegImm`, `memImm` and `jeq`:
`imm = int(instr[10:], 2)`, then `imm -= 64` when the sign character
`instr[9]` is `"1"`. -/
def sImm (w : Nat) : Int :=
  if field w 9 10 = 1 then (field w 10 (slen w) : Int) - 64 else (field w 10 (slen w) : Int)

/-- Python list read `mem[i]` on a list of length `MEM_SIZE`: valid for
`-MEM_SIZE ≤ i < MEM_SIZE` (negative indices count from the end),
`IndexError` (`none`) otherwise. -/
def pyGet (mem : Fin MEM_SIZE → Int) (i : Int) : Option Int :=
  if h : 0 ≤ i ∧ i < (MEM_SIZE : Int) then
    some (mem ⟨i.toNat, by omega⟩)
  else if h' : -(MEM_SIZE : Int) ≤ i ∧ i < 0 then
    some (mem ⟨((MEM_SIZE : Int) + i).toNat, by omega⟩)
  else none

/-- Python list write `mem[i] = v`, with the same index rule as `pyGet`. -/
def pySet (mem : Fin MEM_SIZE → Int) (i : Int) (v : Int) : Option (Fin MEM_SIZE → Int) :=
  if h : 0 ≤ i ∧ i < (MEM_SIZE : Int) then
    some (Function.update mem ⟨i.toNat, by omega⟩ v)
  else if h' : -(MEM_SIZE : Int) ≤ i ∧ i < 0 then
    some (Function.update mem ⟨((MEM_SIZE : Int) + i).toNat, by omega⟩ v)
  else none

/-- Python `&` on arbitrary integers (two's complement; `negSucc n` is `~n`). -/
def pyAnd : Int → Int → Int
  | Int.ofNat m, Int.ofNat n => Int.ofNat (m &&& n)
  | Int.ofNat m, Int.negSucc n => Int.ofNat (Nat.ldiff m n)
  | Int.negSucc m, Int.ofNat n => Int.ofNat (Nat.ldiff n m)
  | Int.negSucc m, Int.negSucc n => Int.negSucc (m ||| n)

/-- Python `|` on arbitrary integers (two's complement). -/
def pyOr : Int → Int → Int
  | Int.ofNat m, Int.ofNat n => Int.ofNat (m ||| n)
  | Int.ofNat m, Int.negSucc n => Int.negSucc (Nat.ldiff n m)
  | Int.negSucc m, Int.ofNat n => Int.negSucc (Nat.ldiff m n)
  | Int.negSucc m, Int.negSucc n => Int.negSucc (m &&& n)

/-- The function `threereg(pc, regs, instr)` of `sim.py`: handles words whose first three
characters are `"000"`.  Mutates `regs` in place and returns the next pc;
modelled as returning the pair (new registers, next pc). -/
def threereg (pc : Int) (regs : Fin NUM_REGS → Int) (w : Nat) : (Fin NUM_REGS → Int) × Int :=
  let dstIndex := fin3 w 9
  let srcA_Index := fin3 w 3
  let srcB_Index := fin3 w 6
  if low4 w = 0 then -- add
    (Function.update regs dstIndex ((regs srcA_Index + regs srcB_Index) % 2 ^ 16), pc + 1)
  else if low4 w = 1 then -- sub
    (Function.update regs dstIndex ((regs srcA_Index - regs srcB_Index) % 2 ^ 16), pc + 1)
  else if low4 w = 2 then -- and
    (Function.update regs dstIndex (pyAnd (regs srcA_Index) (regs srcB_Index)), pc + 1)
  else if low4 w = 3 then -- or
    (Function.update regs dstIndex (pyOr (regs srcA_Index) (regs srcB_Index)), pc + 1)
  else if low4 w = 4 then -- slt
    (Function.update regs dstIndex (if regs srcA_Index < regs srcB_Index then 1 else 0), pc + 1)
  else if low4 w = 8 then -- jr
    (regs, regs srcA_Index)
  else
    (regs, pc + 1)

/-- The function `tworegImm(pc, regs, instr)` of `sim.py`: handles `slti` (`"001"`) and
`addi`/`movi` (`"111"`). -/
def tworegImm (pc : Int) (regs : Fin NUM_REGS → Int) (w : Nat) : (Fin NUM_REGS → Int) × Int :=
  let dstIndex := fin3 w 6
  let srcIndex := fin3 w 3
  let imm := sImm w
  if field w 0 3 = 1 then -- slti
    (Function.update regs dstIndex (if regs srcIndex < imm % 2 ^ 16 then 1 else 0), pc + 1)
  else if field w 0 3 = 7 then -- addi or movi
    (Function.update regs dstIndex ((regs srcIndex + imm) % 2 ^ 16), pc + 1)
  else
    (regs, pc + 1)

/-- The function `memImm(pc, regs, memory, instr)` of `sim.py`: handles `lw` (`"100"`) and
`sw` (`"101"`).  The memory access `memory[regs[addrIndex] + imm]` follows
Python list indexing, so it may raise (`none`). -/
def memImm (pc : Int) (regs : Fin NUM_REGS → Int) (memory : Fin MEM_SIZE → Int) (w : Nat) :
    Option ((Fin NUM_REGS → Int) × (Fin MEM_SIZE → Int) × Int) :=
  let addrIndex := fin3 w 3
  let imm := sImm w
  if field w 0 3 = 4 then -- lw
    let dstIndex := fin3 w 6
    match pyGet memory (regs addrIndex + imm) with
    | some v => some (Function.update regs dstIndex v, memory, pc + 1)
    | none => none
  else if field w 0 3 = 5 then -- sw
    let srcIndex := fin3 w 6
    match pySet memory (regs addrIndex + imm) (regs srcIndex) with
    | some memory' => some (regs, memory', pc + 1)
    | none => none
  else
    some (regs, memory, pc + 1)

/-- The function `jeq(pc, regs, instr)` of `sim.py`: returns `pc + 1 + rel_imm` when the
two registers are equal, `pc + 1` otherwise. -/
def jeq (pc : Int) (regs : Fin NUM_REGS → Int) (w : Nat) : Int :=
  let regA_Index := fin3 w 3
  let regB_Index := fin3 w 6
  let rel_imm := sImm w
  if regs regA_Index = regs regB_Index then pc + 1 + rel_imm else pc + 1

/-- The function `j_or_jal(pc, regs, instr)` of `sim.py`: for `jal` (`"011"`) it first
writes `pc + 1` into register 7; it returns the 13-bit target
`imm = int(instr[3:], 2)` together with the halt flag `pc == imm`. -/
def j_or_jal (pc : Int) (regs : Fin NUM_REGS → Int) (w : Nat) :
    (Fin NUM_REGS → Int) × Int × Bool :=
  let regs' := if field w 0 3 = 3 then Function.update regs ⟨7, by decide⟩ (pc + 1) else regs
  let imm : Int := (field w 3 (slen w) : Int)
  if pc = imm then (regs', imm, true) else (regs', imm, false)

/-- The machine state of `main()`: `pc`, the 8-entry register list, and the
2^15-entry memory list. -/
structure Machine where
  pc : Int
  regs : Fin NUM_REGS → Int
  mem : Fin MEM_SIZE → Int

/-- The fetch `instr = bin(memory[pc])[2:].zfill(16)`, as the fetched word.
`pyGet` models the list read.  A negative fetched word would make `bin`
produce a string containing `-` and `b` whose handling is value-dependent
(usually an exception in the handlers); no run below ever stores a negative
word at a fetched address, and we model that fetch as a fatal error. -/
def fetch (m : Machine) : Option Nat :=
  match pyGet m.mem m.pc with
  | none => none
  | some v => if v < 0 then none else some v.toNat

/-- One iteration of the `while not halt` loop of `main()`: fetch, dispatch on
the leading characters, update the state.  Returns `none` on a Python error,
otherwise the new state and the halt flag. -/
def step (m : Machine) : Option (Machine × Bool) :=
  match fetch m with
  | none => none
  | some w =>
    if field w 0 3 = 0 then
      let r := threereg m.pc m.regs w
      some ({ m with regs := r.1, pc := r.2 }, false)
    else if field w 0 3 = 1 ∨ field w 0 3 = 7 then
      let r := tworegImm m.pc m.regs w
      some ({ m with regs := r.1, pc := r.2 }, false)
    else if field w 0 2 = 2 then
      match memImm m.pc m.regs m.mem w with
      | some (regs', mem', pc') => some ({ pc := pc', regs := regs', mem := mem' }, false)
      | none => none
    else if field w 0 3 = 6 then
      some ({ m with pc := jeq m.pc m.regs w }, false)
    else if field w 0 2 = 1 then
      let r := j_or_jal m.pc m.regs w
      -- on halt the loop exits without assigning pc; otherwise pc := target
      if r.2.2 then some ({ m with regs := r.1 }, true)
      else some ({ m with regs := r.1, pc := r.2.1 }, false)
    else
      -- unreachable: every 3-bit prefix is dispatched above; the Python loop
      -- would repeat with an unchanged state
      some (m, false)

/-- Result of running the loop with a given amount of fuel. -/
inductive Outcome where
  | halted : Machine → Outcome
  | running : Machine → Outcome
  | crashed : Outcome

/-- Run the `while not halt` loop for at most `fuel` iterations. -/
def run : Nat → Machine → Outcome
  | 0, m => Outcome.running m
  | fuel + 1, m =>
    match step m with
    | none => Outcome.crashed
    | some (m', true) => Outcome.halted m'
    | some (m', false) => run fuel m'

/-- The final pc handed to `print_state`, if the run halted. -/
def haltedPc : Outcome → Option Int
  | Outcome.halted m => some m.pc
  | _ => none

/-- A final register value handed to `print_state`, if the run halted. -/
def haltedReg : Outcome → Fin NUM_REGS → Option Int
  | Outcome.halted m, i => some (m.regs i)
  | _, _ => none

/-- The pc of a non-crashed outcome (running or halted). -/
def outPc : Outcome → Option Int
  | Outcome.halted m => some m.pc
  | Outcome.running m => some m.pc
  | Outcome.crashed => none

/-- One iteration of the `for line in machine_code` loop of
`load_machine_code`, after the regex has produced the (address, value) pair
of the line: checks `addr == expectedaddr` (else an exception, `none`) and
writes `mem[addr] = instr` (an out-of-range address raises, modelled through
`pySet`).  The accumulated state is `(expectedaddr, mem)`; a raised exception
propagates. -/
def load_step (st : Option (Nat × (Fin MEM_SIZE → Int))) (p : Nat × Nat) :
    Option (Nat × (Fin MEM_SIZE → Int)) :=
  match st with
  | none => none
  | some (expectedaddr, mem) =>
    if p.1 = expectedaddr then
      match pySet mem (p.1 : Int) (p.2 : Int) with
      | some mem' => some (expectedaddr + 1, mem')
      | none => none
    else none

/-- The function `load_machine_code(machine_code, mem)` of `sim.py`: folds `load_step`
over the parsed lines, starting from `expectedaddr = 0`. -/
def load_machine_code (input : List (Nat × Nat)) (mem : Fin MEM_SIZE → Int) :
    Option (Fin MEM_SIZE → Int) :=
  (input.foldl load_step (some (0, mem))).map Prod.snd

/-- The state set up by `main()` right after loading a program whose parsed
words are `prog` at addresses `0, 1, ...`: pc 0, zeroed registers, the program
words followed by zeros.  (For `prog.length ≤ MEM_SIZE` this is exactly the
memory `load_machine_code` produces from the zero-initialised list.) -/
def initMachine (prog : List Nat) : Machine where
  pc := 0
  regs := fun _ => 0
  mem := fun i => if h : i.val < prog.length then (prog.get ⟨i.val, h⟩ : Int) else 0

/-! ## Basic facts about the bit-field extraction -/

theorem bitlen_le_of_lt : ∀ (f n k : Nat), n < 2 ^ k → bitlen f n ≤ k := by
  intro f
  induction f with
  | zero => intro n k _; simp [bitlen]
  | succ f ih =>
    intro n k hn
    by_cases h0 : n = 0
    · simp [bitlen, h0]
    · have hk : k ≠ 0 := by
        rintro rfl
        simp at hn
        omega
      obtain ⟨k', rfl⟩ : ∃ k', k = k' + 1 := ⟨k - 1, by omega⟩
      have hdiv : n / 2 < 2 ^ k' := by
        have : (2 : Nat) ^ (k' + 1) = 2 * 2 ^ k' := by ring
        omega
      simp only [bitlen, h0, if_false]
      have := ih (n / 2) k' hdiv
      omega

theorem slen_eq (w : Nat) (hw : w < 2 ^ 16) : slen w = 16 :=
  max_eq_left (bitlen_le_of_lt w w 16 hw)

theorem field_eq (w a b : Nat) (hw : w < 2 ^ 16) :
    field w a b = w / 2 ^ (16 - b) % 2 ^ (b - a) := by
  rw [field, slen_eq w hw]

theorem field03_lt (w : Nat) : field w 0 3 < 8 := by
  have : w / 2 ^ (slen w - 3) % 2 ^ (3 - 0) < 2 ^ (3 - 0) :=
    Nat.mod_lt _ (by norm_num)
  simpa [field] using this

theorem field02_eq (w : Nat) : field w 0 2 = field w 0 3 / 2 := by
  have h16 : 16 ≤ slen w := le_max_left _ _
  have h2 : slen w - 2 = (slen w - 3) + 1 := by omega
  rw [field, field, h2, pow_succ, ← Nat.div_div_eq_div_mul]
  omega

/-! ## Python list indexing -/

theorem pyGet_isSome_iff (mem : Fin MEM_SIZE → Int) (i : Int) :
    (pyGet mem i).isSome ↔ -(MEM_SIZE : Int) ≤ i ∧ i < (MEM_SIZE : Int) := by
  rw [pyGet]
  split
  · simp; omega
  · split
    · simp; omega
    · simp; omega

theorem pyGet_bounds {mem : Fin MEM_SIZE → Int} {i v : Int} (h : pyGet mem i = some v) :
    -(MEM_SIZE : Int) ≤ i ∧ i < (MEM_SIZE : Int) := by
  have := (pyGet_isSome_iff mem i).mp (by rw [h]; rfl)
  exact this

theorem pyGet_mem {mem : Fin MEM_SIZE → Int} {i v : Int} (h : pyGet mem i = some v) :
    ∃ j : Fin MEM_SIZE, v = mem j := by
  rw [pyGet] at h
  split at h
  · exact ⟨_, (Option.some_injective _ h).symm⟩
  · split at h
    · exact ⟨_, (Option.some_injective _ h).symm⟩
    · exact absurd h (by simp)

theorem pyGet_neg (mem : Fin MEM_SIZE → Int) (i : Int)
    (h1 : -(MEM_SIZE : Int) ≤ i) (h2 : i < 0) :
    pyGet mem i = pyGet mem ((MEM_SIZE : Int) + i) := by
  rw [pyGet, pyGet]
  rw [dif_neg (by omega), dif_pos ⟨h1, h2⟩, dif_pos (by constructor <;> omega)]

theorem pySet_isSome_iff (mem : Fin MEM_SIZE → Int) (i v : Int) :
    (pySet mem i v).isSome ↔ -(MEM_SIZE : Int) ≤ i ∧ i < (MEM_SIZE : Int) := by
  rw [pySet]
  split
  · simp; omega
  · split
    · simp; omega
    · simp; omega

theorem pySet_mem {mem mem' : Fin MEM_SIZE → Int} {i v : Int}
    (h : pySet mem i v = some mem') : ∃ j : Fin MEM_SIZE, mem' = Function.update mem j v := by
  rw [pySet] at h
  split at h
  · exact ⟨_, (Option.some_injective _ h).symm⟩
  · split at h
    · exact ⟨_, (Option.some_injective _ h).symm⟩
    · exact absurd h (by simp)

theorem pySet_neg (mem : Fin MEM_SIZE → Int) (i v : Int)
    (h1 : -(MEM_SIZE : Int) ≤ i) (h2 : i < 0) :
    pySet mem i v = pySet mem ((MEM_SIZE : Int) + i) v := by
  rw [pySet, pySet]
  rw [dif_neg (by omega), dif_pos ⟨h1, h2⟩, dif_pos (by constructor <;> omega)]

theorem pySet_pyGet {mem mem' : Fin MEM_SIZE → Int} {i v : Int}
    (h : pySet mem i v = some mem') : pyGet mem' i = some v := by
  rw [pySet] at h
  rw [pyGet]
  split at h
  · rw [dif_pos (by assumption)]
    rw [← (Option.some_injective _ h)]
    simp
  · split at h
    · rw [dif_neg (by assumption), dif_pos (by assumption)]
      rw [← (Option.some_injective _ h)]
      simp
    · exact absurd h (by simp)

/-! ## Fetch and dispatch -/

theorem fetch_pc_bounds {m : Machine} {w : Nat} (h : fetch m = some w) :
    -(MEM_SIZE : Int) ≤ m.pc ∧ m.pc < (MEM_SIZE : Int) := by
  rw [fetch] at h
  rcases hg : pyGet m.mem m.pc with _ | v
  · rw [hg] at h; exact absurd h (by simp)
  · exact pyGet_bounds hg

theorem fetch_out_of_range {m : Machine}
    (h : m.pc < -(MEM_SIZE : Int) ∨ (MEM_SIZE : Int) ≤ m.pc) : fetch m = none := by
  rw [fetch]
  rcases hg : pyGet m.mem m.pc with _ | v
  · rfl
  · have := pyGet_bounds hg
    omega

theorem step_dispatch_threereg {m : Machine} {w : Nat}
    (hf : fetch m = some w) (h03 : field w 0 3 = 0) :
    step m = some ({ m with regs := (threereg m.pc m.regs w).1,
                            pc := (threereg m.pc m.regs w).2 }, false) := by
  rw [step, hf]
  simp [h03]

theorem step_dispatch_tworegImm {m : Machine} {w : Nat}
    (hf : fetch m = some w) (h03 : field w 0 3 = 1 ∨ field w 0 3 = 7) :
    step m = some ({ m with regs := (tworegImm m.pc m.regs w).1,
                            pc := (tworegImm m.pc m.regs w).2 }, false) := by
  rw [step, hf]
  rcases h03 with h03 | h03 <;> simp [h03]

theorem step_dispatch_memImm {m : Machine} {w : Nat}
    (hf : fetch m = some w) (h03 : field w 0 3 = 4 ∨ field w 0 3 = 5) :
    step m = match memImm m.pc m.regs m.mem w with
      | some (regs', mem', pc') => some ({ pc := pc', regs := regs', mem := mem' }, false)
      | none => none := by
  have h02 : field w 0 2 = 2 := by
    rw [field02_eq]; rcases h03 with h | h <;> rw [h]
  rw [step, hf]
  rcases h03 with h03 | h03 <;> simp [h03, h02]

theorem step_dispatch_jeq {m : Machine} {w : Nat}
    (hf : fetch m = some w) (h03 : field w 0 3 = 6) :
    step m = some ({ m with pc := jeq m.pc m.regs w }, false) := by
  have h02 : field w 0 2 = 3 := by rw [field02_eq, h03]
  rw [step, hf]
  simp [h03, h02]

theorem step_dispatch_jump {m : Machine} {w : Nat}
    (hf : fetch m = some w) (h03 : field w 0 3 = 2 ∨ field w 0 3 = 3) :
    step m = if ((j_or_jal m.pc m.regs w).2.2 : Bool)
      then some ({ m with regs := (j_or_jal m.pc m.regs w).1 }, true)
      else some ({ m with regs := (j_or_jal m.pc m.regs w).1,
                          pc := (j_or_jal m.pc m.regs w).2.1 }, false) := by
  have h02 : field w 0 2 = 1 := by
    rw [field02_eq]; rcases h03 with h | h <;> rw [h]
  rw [step, hf]
  rcases h03 with h03 | h03 <;> simp [h03, h02]

theorem run_succ (fuel : Nat) (m : Machine) :
    run (fuel + 1) m = match step m with
      | none => Outcome.crashed
      | some (m', true) => Outcome.halted m'
      | some (m', false) => run fuel m' := rfl

theorem j_or_jal_parts (pc : Int) (regs : Fin NUM_REGS → Int) (w : Nat) :
    (j_or_jal pc regs w).1 =
      (if field w 0 3 = 3 then Function.update regs ⟨7, by decide⟩ (pc + 1) else regs) ∧
    (j_or_jal pc regs w).2.1 = (field w 3 (slen w) : Int) ∧
    ((j_or_jal pc regs w).2.2 = true ↔ pc = (field w 3 (slen w) : Int)) := by
  rw [j_or_jal]
  split
  · simp_all
  · simp_all

/-! ## Claim theorems -/

/-- C1: when the fetched instruction is an absolute jump (`j`, prefix `010`,
or `jal`, prefix `011`) whose 13-bit target equals the current pc, the main
cycle halts: for every remaining fuel the run is `Halted` with final reported
pc equal to the self-jump address, and no further cycle executes. -/
theorem c1_self_jump_halts (m : Machine) (w : Nat)
    (hf : fetch m = some w) (h03 : field w 0 3 = 2 ∨ field w 0 3 = 3)
    (htgt : (field w 3 (slen w) : Int) = m.pc) :
    ∀ fuel : Nat, haltedPc (run (fuel + 1) m) = some m.pc := by
  intro fuel
  have hs := step_dispatch_jump hf h03
  have hhalt : (j_or_jal m.pc m.regs w).2.2 = true :=
    (j_or_jal_parts m.pc m.regs w).2.2.mpr htgt.symm
  rw [hhalt, if_pos rfl] at hs
  rw [run_succ, hs]
  rfl

/-- C1 witness: a plain jump to address 0 located at address 0 halts the run
immediately with final pc 0. -/
theorem c1_witness :
    fetch (initMachine [16384]) = some 16384 ∧
    haltedPc (run 1 (initMachine [16384])) = some ((initMachine [16384]).pc) :=
  ⟨by decide,
   c1_self_jump_halts (initMachine [16384]) 16384 (by decide) (Or.inl (by decide)) (by decide) 0⟩

/-- C10: a jump-and-link whose 13-bit target equals its own address still
writes pc + 1 into register 7 before the halt is signalled, so the final
reported state has register 7 = pc + 1 (and final pc = that address). -/
theorem c10_jal_self_jump_links (m : Machine) (w : Nat)
    (hf : fetch m = some w) (h03 : field w 0 3 = 3)
    (htgt : (field w 3 (slen w) : Int) = m.pc) :
    ∀ fuel : Nat, haltedReg (run (fuel + 1) m) ⟨7, by decide⟩ = some (m.pc + 1) ∧
      haltedPc (run (fuel + 1) m) = some m.pc := by
  intro fuel
  have hs := step_dispatch_jump hf (Or.inr h03)
  have hhalt : (j_or_jal m.pc m.regs w).2.2 = true :=
    (j_or_jal_parts m.pc m.regs w).2.2.mpr htgt.symm
  rw [hhalt, if_pos rfl] at hs
  rw [run_succ, hs]
  have hregs := (j_or_jal_parts m.pc m.regs w).1
  rw [if_pos h03] at hregs
  constructor
  · show some ((j_or_jal m.pc m.regs w).1 ⟨7, by decide⟩) = some (m.pc + 1)
    rw [hregs, Function.update_same]
  · rfl

/-- C10 witness: `jal 0` at address 0 halts with register 7 = 1 and pc 0. -/
theorem c10_witness :
    fetch (initMachine [24576]) = some 24576 ∧
    (haltedReg (run 1 (initMachine [24576])) ⟨7, by decide⟩ =
        some ((initMachine [24576]).pc + 1) ∧
      haltedPc (run 1 (initMachine [24576])) = some ((initMachine [24576]).pc)) :=
  ⟨by decide,
   c10_jal_self_jump_links (initMachine [24576]) 24576 (by decide) (by decide) (by decide) 0⟩

/-- C5: an executed absolute jump never touches memory; `jal` (prefix `011`)
writes pc + 1 into register 7 and changes no other register; a plain `j`
(prefix `010`) changes no register at all. -/
theorem c5_jump_frame (m m' : Machine) (hl : Bool) (w : Nat)
    (hf : fetch m = some w) (h03 : field w 0 3 = 2 ∨ field w 0 3 = 3)
    (hs : step m = some (m', hl)) :
    m'.mem = m.mem ∧
    (field w 0 3 = 3 → m'.regs ⟨7, by decide⟩ = m.pc + 1 ∧
      ∀ i : Fin NUM_REGS, i ≠ ⟨7, by decide⟩ → m'.regs i = m.regs i) ∧
    (field w 0 3 = 2 → m'.regs = m.regs) := by
  rw [step_dispatch_jump hf h03] at hs
  have hregs := (j_or_jal_parts m.pc m.regs w).1
  have hm' : m'.regs = (j_or_jal m.pc m.regs w).1 ∧ m'.mem = m.mem := by
    split at hs
    all_goals
      simp only [Option.some.injEq, Prod.mk.injEq] at hs
      obtain ⟨h1, -⟩ := hs
      rw [← h1]
      exact ⟨rfl, rfl⟩
  refine ⟨hm'.2, fun h3 => ?_, fun h2 => ?_⟩
  · rw [hm'.1, hregs, if_pos h3]
    exact ⟨Function.update_same _ _ _, fun i hi => Function.update_noteq hi _ _⟩
  · rw [hm'.1, hregs, if_neg (by rw [h2]; decide)]

/-- C5 witness: `jal 2` at address 0 (word 24578) writes 1 into register 7,
leaves register 0 alone, and leaves memory unchanged. -/
theorem c5_witness :
    ({ initMachine [24578] with
        regs := Function.update (initMachine [24578]).regs ⟨7, by decide⟩
          ((initMachine [24578]).pc + 1),
        pc := 2 } : Machine).mem = (initMachine [24578]).mem ∧
    ({ initMachine [24578] with
        regs := Function.update (initMachine [24578]).regs ⟨7, by decide⟩
          ((initMachine [24578]).pc + 1),
        pc := 2 } : Machine).regs ⟨7, by decide⟩ = (initMachine [24578]).pc + 1 := by
  have h := c5_jump_frame (initMachine [24578])
    { initMachine [24578] with
        regs := Function.update (initMachine [24578]).regs ⟨7, by decide⟩
          ((initMachine [24578]).pc + 1),
        pc := 2 } false 24578 (by decide) (Or.inr (by decide)) rfl
  exact ⟨h.1, (h.2.1 (by decide)).1⟩

/-- C8: a word with leading characters `000` whose low 4 bits are none of the
six defined function codes falls through every branch of `threereg`: the
cycle changes no register, no memory cell, does not halt, and sets
pc to pc + 1. -/
theorem c8_unknown_funccode_nop (m m' : Machine) (hl : Bool) (w : Nat)
    (hf : fetch m = some w) (h03 : field w 0 3 = 0)
    (hc : low4 w ≠ 0 ∧ low4 w ≠ 1 ∧ low4 w ≠ 2 ∧ low4 w ≠ 3 ∧ low4 w ≠ 4 ∧ low4 w ≠ 8)
    (hs : step m = some (m', hl)) :
    m'.regs = m.regs ∧ m'.mem = m.mem ∧ m'.pc = m.pc + 1 ∧ hl = false := by
  rw [step_dispatch_threereg hf h03] at hs
  obtain ⟨h0, h1, h2, h3, h4, h8⟩ := hc
  have ht : threereg m.pc m.regs w = (m.regs, m.pc + 1) := by
    rw [threereg]
    simp only [if_neg h0, if_neg h1, if_neg h2, if_neg h3, if_neg h4, if_neg h8]
  rw [ht] at hs
  simp only [Option.some.injEq, Prod.mk.injEq] at hs
  obtain ⟨hm, hhl⟩ := hs
  rw [← hm]
  exact ⟨rfl, rfl, rfl, hhl.symm⟩

/-- C8 witness: word 5 (`000` + function code `0101`) executes as a no-op
advancing pc from 0 to 1. -/
theorem c8_witness :
    ({ initMachine [5] with pc := (initMachine [5]).pc + 1 } : Machine).pc =
      (initMachine [5]).pc + 1 ∧
    ({ initMachine [5] with pc := (initMachine [5]).pc + 1 } : Machine).regs =
      (initMachine [5]).regs := by
  have h := c8_unknown_funccode_nop (initMachine [5])
    { initMachine [5] with pc := (initMachine [5]).pc + 1 } false 5
    (by decide) (by decide) (by decide) rfl
  exact ⟨h.2.2.1, h.1⟩

/-- C2 counterexample: the word 57471 (`addi` with 7-bit immediate field
`1111111`, value 127, sign bit set) makes the handler use −1, writing
(0 + (−1)) mod 2^16 = 65535 into the destination register; the claimed value
field_value − 64 = 63 would have written 63 instead. -/
theorem c2_counterexample :
    field 57471 9 10 = 1 ∧ field 57471 9 16 = 127 ∧ field 57471 0 3 = 7 ∧
    (tworegImm 0 (fun _ => 0) 57471).1 (fin3 57471 6) = 65535 ∧
    ((0 : Int) + ((field 57471 9 16 : Int) - 64)) % 2 ^ 16 = 63 ∧
    (65535 : Int) ≠ 63 := by decide

/-- C2 (amended): for a 7-bit immediate field of a 16-bit word, a set sign
bit makes the value used by the handlers equal field_value − 128
(equivalently, the low six bits minus 64), a clear sign bit leaves the field
value unchanged, and the resulting signed value (always in [−64, 63]) is
usable directly in modulo-2^16 arithmetic. -/
theorem c2_amended_sign_extension (w : Nat) (hw : w < 2 ^ 16) :
    (field w 9 10 = 1 → sImm w = (field w 9 16 : Int) - 128) ∧
    (field w 9 10 = 0 → sImm w = (field w 9 16 : Int)) ∧
    (-64 ≤ sImm w ∧ sImm w ≤ 63) ∧
    0 ≤ sImm w % 2 ^ 16 ∧ sImm w % 2 ^ 16 < 2 ^ 16 := by
  have h1 : field w 9 10 = w / 64 % 2 := by
    rw [field_eq w 9 10 hw]; norm_num
  have h2 : field w 9 16 = w % 128 := by
    rw [field_eq w 9 16 hw]; norm_num
  have h3 : field w 10 (slen w) = w % 64 := by
    rw [slen_eq w hw, field_eq w 10 16 hw]; norm_num
  have hs : sImm w = if w / 64 % 2 = 1 then ((w % 64 : Nat) : Int) - 64
      else ((w % 64 : Nat) : Int) := by
    rw [sImm, h1, h3]
  refine ⟨?_, ?_, ?_, ?_, ?_⟩
  · intro hbit
    rw [h1] at hbit
    rw [hs, if_pos hbit, h2]
    omega
  · intro hbit
    rw [h1] at hbit
    rw [hs, if_neg (by omega), h2]
    omega
  · rw [hs]; split <;> omega
  · rw [hs]; split <;> omega
  · rw [hs]; split <;> omega

/-- C2 witness: the amended rule at word 57471 (sign bit set, field 127)
gives the immediate 127 − 128 = −1. -/
theorem c2_witness : sImm 57471 = (field 57471 9 16 : Int) - 128 :=
  (c2_amended_sign_extension 57471 (by decide)).1 (by decide)

/-- C6: `slt` (function code `0100`) and `slti` (prefix `001`) write exactly
1 or exactly 0 into the destination register; on nonnegative register values
the `slt` comparison agrees with the unsigned (`toNat`) comparison, and
`slti` compares the source register against the signed immediate reduced
modulo 2^16. -/
theorem c6_slt_slti (pc : Int) (regs : Fin NUM_REGS → Int) (w : Nat)
    (hnn : ∀ i, 0 ≤ regs i) :
    (low4 w = 4 →
      (threereg pc regs w).1 (fin3 w 9) =
        (if regs (fin3 w 3) < regs (fin3 w 6) then 1 else 0) ∧
      ((threereg pc regs w).1 (fin3 w 9) = 0 ∨ (threereg pc regs w).1 (fin3 w 9) = 1) ∧
      (regs (fin3 w 3) < regs (fin3 w 6) ↔
        (regs (fin3 w 3)).toNat < (regs (fin3 w 6)).toNat)) ∧
    (field w 0 3 = 1 →
      (tworegImm pc regs w).1 (fin3 w 6) =
        (if regs (fin3 w 3) < sImm w % 2 ^ 16 then 1 else 0) ∧
      ((tworegImm pc regs w).1 (fin3 w 6) = 0 ∨ (tworegImm pc regs w).1 (fin3 w 6) = 1)) := by
  constructor
  · intro h4
    have ht : (threereg pc regs w).1 =
        Function.update regs (fin3 w 9) (if regs (fin3 w 3) < regs (fin3 w 6) then 1 else 0) := by
      rw [threereg]
      simp only [h4]
      norm_num
    rw [ht, Function.update_same]
    refine ⟨rfl, ?_, ?_⟩
    · split
      · exact Or.inr rfl
      · exact Or.inl rfl
    · have ha := hnn (fin3 w 3)
      have hb := hnn (fin3 w 6)
      omega
  · intro h1
    have ht : (tworegImm pc regs w).1 =
        Function.update regs (fin3 w 6) (if regs (fin3 w 3) < sImm w % 2 ^ 16 then 1 else 0) := by
      rw [tworegImm]
      simp only [h1]
      norm_num
    rw [ht, Function.update_same]
    refine ⟨rfl, ?_⟩
    split
    · exact Or.inr rfl
    · exact Or.inl rfl

/-- Register file with register 1 = 3 and register 2 = 9, for the C6 witness. -/
def c6regs : Fin NUM_REGS → Int := fun i => if i.val = 1 then 3 else if i.val = 2 then 9 else 0

/-- C6 witness: word 9476 has function code `0100` and prefix `001`;
`slt` on registers 3 < 9 writes 1, and `slti` on 3 < 4 writes 1. -/
theorem c6_witness :
    (threereg 0 c6regs 9476).1 (fin3 9476 9) = 1 ∧
    (tworegImm 0 c6regs 9476).1 (fin3 9476 6) = 1 := by
  have h := c6_slt_slti 0 c6regs 9476 (by decide)
  exact ⟨((h.1 (by decide)).1).trans (by decide), ((h.2 (by decide)).1).trans (by decide)⟩

/-- C7: a store (`sw`, prefix `101`) of a value to an in-bounds effective
address followed by a load (`lw`, prefix `100`) whose effective address is
the same leaves the loaded destination register equal to the stored value,
with both instructions succeeding and advancing pc by one. -/
theorem c7_store_then_load (pc1 pc2 : Int) (regs : Fin NUM_REGS → Int)
    (mem : Fin MEM_SIZE → Int) (w1 w2 : Nat)
    (hsw : field w1 0 3 = 5) (hlw : field w2 0 3 = 4)
    (haddr : regs (fin3 w2 3) + sImm w2 = regs (fin3 w1 3) + sImm w1)
    (hlo : 0 ≤ regs (fin3 w1 3) + sImm w1)
    (hhi : regs (fin3 w1 3) + sImm w1 < (MEM_SIZE : Int)) :
    ∃ mem', memImm pc1 regs mem w1 = some (regs, mem', pc1 + 1) ∧
      memImm pc2 regs mem' w2 =
        some (Function.update regs (fin3 w2 6) (regs (fin3 w1 6)), mem', pc2 + 1) := by
  rcases hset : pySet mem (regs (fin3 w1 3) + sImm w1) (regs (fin3 w1 6)) with _ | mem'
  · have hsome : (pySet mem (regs (fin3 w1 3) + sImm w1) (regs (fin3 w1 6))).isSome :=
      (pySet_isSome_iff _ _ _).mpr ⟨by omega, hhi⟩
    rw [hset] at hsome
    exact absurd hsome (by simp)
  · refine ⟨mem', ?_, ?_⟩
    · rw [memImm]
      simp only
      rw [if_neg (by omega), if_pos hsw, hset]
    · have hget : pyGet mem' (regs (fin3 w2 3) + sImm w2) = some (regs (fin3 w1 6)) := by
        rw [haddr]
        exact pySet_pyGet hset
      rw [memImm]
      simp only
      rw [if_pos hlw, hget]

/-- Register file with register 1 = 7, for the C7 witness. -/
def c7regs : Fin NUM_REGS → Int := fun i => if i.val = 1 then 7 else 0

/-- C7 witness: `sw $1, 5($0)` (word 41093) stores 7 at address 5, and
`lw $2, 5($0)` (word 33029) loads 7 back into register 2. -/
theorem c7_witness :
    ∃ mem', memImm 0 c7regs (fun _ => 0) 41093 = some (c7regs, mem', 1) ∧
      memImm 1 c7regs mem' 33029 =
        some (Function.update c7regs (fin3 33029 6) (c7regs (fin3 41093 6)), mem', 2) :=
  c7_store_then_load 0 1 c7regs (fun _ => 0) 41093 33029
    (by decide) (by decide) (by decide) (by decide) (by decide)

/-- C9: a load or store whose effective address is negative but not below
−MEM_SIZE does not fail: it accesses the cell at index MEM_SIZE + address
(wrapping from the end of memory) and advances pc by 1. -/
theorem c9_negative_address_wraps (pc : Int) (regs : Fin NUM_REGS → Int)
    (mem : Fin MEM_SIZE → Int) (w : Nat)
    (hlo : -(MEM_SIZE : Int) ≤ regs (fin3 w 3) + sImm w)
    (hhi : regs (fin3 w 3) + sImm w < 0) :
    (field w 0 3 = 4 →
      ∃ v, pyGet mem ((MEM_SIZE : Int) + (regs (fin3 w 3) + sImm w)) = some v ∧
        memImm pc regs mem w = some (Function.update regs (fin3 w 6) v, mem, pc + 1)) ∧
    (field w 0 3 = 5 →
      ∃ mem', pySet mem ((MEM_SIZE : Int) + (regs (fin3 w 3) + sImm w)) (regs (fin3 w 6)) =
          some mem' ∧
        memImm pc regs mem w = some (regs, mem', pc + 1)) := by
  constructor
  · intro h4
    rcases hget : pyGet mem ((MEM_SIZE : Int) + (regs (fin3 w 3) + sImm w)) with _ | v
    · have hsome : (pyGet mem ((MEM_SIZE : Int) + (regs (fin3 w 3) + sImm w))).isSome :=
        (pyGet_isSome_iff _ _).mpr ⟨by omega, by omega⟩
      rw [hget] at hsome
      exact absurd hsome (by simp)
    · refine ⟨v, rfl, ?_⟩
      rw [memImm]
      simp only
      rw [if_pos h4, pyGet_neg mem _ hlo hhi, hget]
  · intro h5
    rcases hset : pySet mem ((MEM_SIZE : Int) + (regs (fin3 w 3) + sImm w)) (regs (fin3 w 6))
      with _ | mem'
    · have hsome : (pySet mem ((MEM_SIZE : Int) + (regs (fin3 w 3) + sImm w))
          (regs (fin3 w 6))).isSome :=
        (pySet_isSome_iff _ _ _).mpr ⟨by omega, by omega⟩
      rw [hset] at hsome
      exact absurd hsome (by simp)
    · refine ⟨mem', rfl, ?_⟩
      rw [memImm]
      simp only
      rw [if_neg (by omega), if_pos h5, pySet_neg mem _ _ hlo hhi, hset]

/-- Memory whose last cell (index 32767) holds 42, for the C9 witness. -/
def c9mem : Fin MEM_SIZE → Int := fun j => if j.val = 32767 then 42 else 0

/-- C9 witness: `lw $2, -1($0)` (word 33151) with register 0 = 0 has
effective address −1; it succeeds and reads cell 32768 + (−1) = 32767. -/
theorem c9_witness :
    ∃ v, pyGet c9mem ((MEM_SIZE : Int) + ((fun _ => (0 : Int)) (fin3 33151 3) + sImm 33151)) =
        some v ∧
      memImm 0 (fun _ => (0 : Int)) c9mem 33151 =
        some (Function.update (fun _ => (0 : Int)) (fin3 33151 6) v, c9mem, 1) :=
  (c9_negative_address_wraps 0 (fun _ => 0) c9mem 33151 (by decide) (by decide)).1 (by decide)

/-- C3 counterexample: the program consisting only of `jeq $0, $0, -2`
(word 49278) at address 0 branches to pc = −1 (registers 0 and 0 are equal);
the next cycle executes normally — the fetch wraps to memory cell 32767 —
instead of aborting, so a run does reach a fetch with pc < 0. -/
theorem c3_counterexample :
    outPc (run 1 (initMachine [49278])) = some (-1) ∧ (-1 : Int) < 0 ∧
    outPc (run 2 (initMachine [49278])) = some 0 := by decide

/-- C3 (amended): before each fetch the pc satisfies
−MEM_SIZE ≤ pc < MEM_SIZE whenever the fetch succeeds (a negative pc in
[−MEM_SIZE, 0) continues, indexing memory from the end), and a pc outside
[−MEM_SIZE, MEM_SIZE) is fatal: the fetch fails and the run aborts. -/
theorem c3_amended_pc_bounds (m : Machine) :
    (∀ w, fetch m = some w → -(MEM_SIZE : Int) ≤ m.pc ∧ m.pc < (MEM_SIZE : Int)) ∧
    (m.pc < -(MEM_SIZE : Int) ∨ (MEM_SIZE : Int) ≤ m.pc →
      ∀ fuel, run (fuel + 1) m = Outcome.crashed) := by
  constructor
  · intro w hf
    exact fetch_pc_bounds hf
  · intro hout fuel
    have hstep : step m = none := by
      rw [step, fetch_out_of_range hout]
    rw [run_succ, hstep]

/-- C3 witness: a successful fetch at pc 0 is within bounds, and a machine
whose pc is 32768 crashes on its next cycle. -/
theorem c3_witness :
    (-(MEM_SIZE : Int) ≤ (initMachine [16388]).pc ∧ (initMachine [16388]).pc < (MEM_SIZE : Int)) ∧
    run 1 ⟨32768, fun _ => 0, fun _ => 0⟩ = Outcome.crashed :=
  ⟨(c3_amended_pc_bounds (initMachine [16388])).1 16388 (by decide),
   (c3_amended_pc_bounds ⟨32768, fun _ => 0, fun _ => 0⟩).2 (Or.inr (by decide)) 0⟩

/-! ## Value-range machinery for C4 -/

/-- The range every register and memory word is claimed to stay in. -/
def wordRange (x : Int) : Prop := 0 ≤ x ∧ x < 2 ^ 16

/-- All registers and all memory cells of a machine are 16-bit words. -/
def stateOk (m : Machine) : Prop :=
  (∀ i, wordRange (m.regs i)) ∧ (∀ j, wordRange (m.mem j))

theorem wordRange_update {n : Nat} {f : Fin n → Int} (h : ∀ i, wordRange (f i))
    {j : Fin n} {v : Int} (hv : wordRange v) : ∀ i, wordRange (Function.update f j v i) := by
  intro i
  rw [Function.update_apply]
  split
  · exact hv
  · exact h i

theorem wordRange_emod (x : Int) : wordRange (x % 2 ^ 16) :=
  ⟨Int.emod_nonneg _ (by norm_num), Int.emod_lt_of_pos _ (by norm_num)⟩

theorem wordRange_pyAnd {a b : Int} (ha : wordRange a) (hb : wordRange b) :
    wordRange (pyAnd a b) := by
  obtain ⟨p, rfl⟩ : ∃ p : Nat, a = (p : Int) := ⟨a.toNat, by have := ha.1; omega⟩
  obtain ⟨q, rfl⟩ : ∃ q : Nat, b = (q : Int) := ⟨b.toNat, by have := hb.1; omega⟩
  show wordRange ((p &&& q : Nat) : Int)
  have h1 : p &&& q ≤ p := Nat.and_le_left
  have h2 : (p : Int) < 2 ^ 16 := ha.2
  exact ⟨Int.natCast_nonneg _, by omega⟩

theorem wordRange_pyOr {a b : Int} (ha : wordRange a) (hb : wordRange b) :
    wordRange (pyOr a b) := by
  obtain ⟨p, rfl⟩ : ∃ p : Nat, a = (p : Int) := ⟨a.toNat, by have := ha.1; omega⟩
  obtain ⟨q, rfl⟩ : ∃ q : Nat, b = (q : Int) := ⟨b.toNat, by have := hb.1; omega⟩
  show wordRange ((p ||| q : Nat) : Int)
  have hp : p < 2 ^ 16 := by have := ha.2; omega
  have hq : q < 2 ^ 16 := by have := hb.2; omega
  have h1 : p ||| q < 2 ^ 16 := Nat.or_lt_two_pow hp hq
  exact ⟨Int.natCast_nonneg _, by omega⟩

theorem threereg_regs_ok (pc : Int) (regs : Fin NUM_REGS → Int) (w : Nat)
    (h : ∀ i, wordRange (regs i)) : ∀ i, wordRange ((threereg pc regs w).1 i) := by
  intro i
  simp only [threereg]
  split_ifs
  · exact wordRange_update h (wordRange_emod _) i
  · exact wordRange_update h (wordRange_emod _) i
  · exact wordRange_update h (wordRange_pyAnd (h _) (h _)) i
  · exact wordRange_update h (wordRange_pyOr (h _) (h _)) i
  · exact wordRange_update h ⟨by norm_num, by norm_num⟩ i
  · exact wordRange_update h ⟨by norm_num, by norm_num⟩ i
  · exact h i
  · exact h i

theorem tworegImm_regs_ok (pc : Int) (regs : Fin NUM_REGS → Int) (w : Nat)
    (h : ∀ i, wordRange (regs i)) : ∀ i, wordRange ((tworegImm pc regs w).1 i) := by
  intro i
  simp only [tworegImm]
  split_ifs
  · exact wordRange_update h ⟨by norm_num, by norm_num⟩ i
  · exact wordRange_update h ⟨by norm_num, by norm_num⟩ i
  · exact wordRange_update h (wordRange_emod _) i
  · exact h i

theorem memImm_ok {pc pc' : Int} {regs regs' : Fin NUM_REGS → Int}
    {mem mem' : Fin MEM_SIZE → Int} {w : Nat}
    (hregs : ∀ i, wordRange (regs i)) (hmem : ∀ j, wordRange (mem j))
    (hres : memImm pc regs mem w = some (regs', mem', pc')) :
    (∀ i, wordRange (regs' i)) ∧ (∀ j, wordRange (mem' j)) := by
  simp only [memImm] at hres
  split_ifs at hres
  · rcases hget : pyGet mem (regs (fin3 w 3) + sImm w) with _ | v
    · rw [hget] at hres
      exact absurd hres (by simp)
    · rw [hget] at hres
      simp only [Option.some.injEq, Prod.mk.injEq] at hres
      obtain ⟨h1, h2, -⟩ := hres
      obtain ⟨j0, rfl⟩ := pyGet_mem hget
      rw [← h1, ← h2]
      exact ⟨wordRange_update hregs (hmem j0), hmem⟩
  · rcases hset : pySet mem (regs (fin3 w 3) + sImm w) (regs (fin3 w 6)) with _ | memx
    · rw [hset] at hres
      exact absurd hres (by simp)
    · rw [hset] at hres
      simp only [Option.some.injEq, Prod.mk.injEq] at hres
      obtain ⟨h1, h2, -⟩ := hres
      obtain ⟨j0, hj0⟩ := pySet_mem hset
      rw [← h1, ← h2, hj0]
      exact ⟨hregs, wordRange_update hmem (hregs _)⟩
  · simp only [Option.some.injEq, Prod.mk.injEq] at hres
    obtain ⟨h1, h2, -⟩ := hres
    rw [← h1, ← h2]
    exact ⟨hregs, hmem⟩

/-- Program for the C4 counterexample: `lw $2, 5($0)` loads the data word at
address 5 (a `jal 4` instruction, 24580); `sw $2, -2($0)` stores it at memory
cell 32766; `jeq $0, $0, -5` branches to pc = −2, which fetches that `jal`
(wrapping); the `jal` at pc = −2 writes −2 + 1 = −1 into register 7 and jumps
to 4, where `j 4` halts. -/
def c4prog : List Nat := [33029, 41342, 49275, 0, 16388, 24580]

set_option maxHeartbeats 1000000 in
/-- C4 counterexample: running `c4prog` halts with register 7 = −1, a value
outside [0, 2^16) observable in the final (and an intermediate) state, so a
jump-and-link executed at a negative pc breaks the claimed invariant. -/
theorem c4_counterexample :
    haltedReg (run 10 (initMachine c4prog)) ⟨7, by decide⟩ = some (-1) ∧
    ¬ (0 ≤ (-1 : Int) ∧ (-1 : Int) < 2 ^ 16) := by decide

theorem load_step_fold_ok : ∀ (input : List (Nat × Nat))
    (st : Option (Nat × (Fin MEM_SIZE → Int))) (e' : Nat) (mem' : Fin MEM_SIZE → Int),
    (∀ p ∈ input, p.2 < 2 ^ 16) →
    (∀ e mem, st = some (e, mem) → ∀ j, wordRange (mem j)) →
    input.foldl load_step st = some (e', mem') → ∀ j, wordRange (mem' j) := by
  intro input
  induction input with
  | nil =>
    intro st e' mem' _ hst hf j
    rw [List.foldl_nil] at hf
    exact hst e' mem' hf j
  | cons p rest ih =>
    intro st e' mem' hp hst hf j
    rw [List.foldl_cons] at hf
    refine ih (load_step st p) e' mem' (fun q hq => hp q (List.mem_cons_of_mem _ hq)) ?_ hf j
    intro e mem hstep
    rcases st with _ | st0
    · simp only [load_step] at hstep
      exact absurd hstep (by simp)
    · obtain ⟨e0, mem0⟩ := st0
      simp only [load_step] at hstep
      split_ifs at hstep
      · rcases hset : pySet mem0 (p.1 : Int) (p.2 : Int) with _ | mem1
        · rw [hset] at hstep
          exact absurd hstep (by simp)
        · rw [hset] at hstep
          simp only [Option.some.injEq, Prod.mk.injEq] at hstep
          obtain ⟨-, h2⟩ := hstep
          rw [← h2]
          obtain ⟨j0, hj0⟩ := pySet_mem hset
          rw [hj0]
          refine wordRange_update (hst e0 mem0 rfl) ⟨Int.natCast_nonneg _, ?_⟩
          have hi := hp p (List.mem_cons_self _ _)
          exact_mod_cast hi

/-- C4 (amended): loading words that are 16-bit values produces memory in
[0, 2^16), and every executed cycle whose starting pc is nonnegative
preserves 0 ≤ v < 2^16 for all registers and memory cells; the sole
exception, forced by the counterexample, is a jump-and-link executed at a
negative pc (reachable by a backward branch), which writes pc + 1 ≤ 0 into
register 7. -/
theorem c4_amended_word_ranges :
    (∀ (input : List (Nat × Nat)) (mem0 mem' : Fin MEM_SIZE → Int),
        (∀ p ∈ input, p.2 < 2 ^ 16) → (∀ j, wordRange (mem0 j)) →
        load_machine_code input mem0 = some mem' →
        ∀ j, wordRange (mem' j)) ∧
    (∀ (m m' : Machine) (hl : Bool), 0 ≤ m.pc → stateOk m →
        step m = some (m', hl) → stateOk m') := by
  constructor
  · intro input mem0 mem' hp hm0 hload
    rw [load_machine_code] at hload
    rcases hfold : input.foldl load_step (some (0, mem0)) with _ | st
    · rw [hfold] at hload
      exact absurd hload (by simp)
    · obtain ⟨e', memx⟩ := st
      rw [hfold] at hload
      simp only [Option.map_some', Option.some.injEq] at hload
      rw [← hload]
      refine load_step_fold_ok input (some (0, mem0)) e' memx hp ?_ hfold
      intro e mem h
      simp only [Option.some.injEq, Prod.mk.injEq] at h
      rw [← h.2]
      exact hm0
  · intro m m' hl hpc hok hs
    rcases hf : fetch m with _ | w
    · rw [step, hf] at hs
      exact absurd hs (by simp)
    · have hpcu : m.pc < (MEM_SIZE : Int) := (fetch_pc_bounds hf).2
      obtain ⟨hr, hm⟩ := hok
      have hcase : field w 0 3 = 0 ∨ field w 0 3 = 1 ∨ field w 0 3 = 2 ∨ field w 0 3 = 3 ∨
          field w 0 3 = 4 ∨ field w 0 3 = 5 ∨ field w 0 3 = 6 ∨ field w 0 3 = 7 := by
        have := field03_lt w
        omega
      have hjump : (field w 0 3 = 2 ∨ field w 0 3 = 3) → stateOk m' := by
        intro hk
        rw [step_dispatch_jump hf hk] at hs
        have hregs' : ∀ i, wordRange ((j_or_jal m.pc m.regs w).1 i) := by
          rw [(j_or_jal_parts m.pc m.regs w).1]
          split_ifs
          · refine wordRange_update hr ⟨by omega, ?_⟩
            have hms : (MEM_SIZE : Int) = 32768 := by norm_num [MEM_SIZE]
            omega
          · exact hr
        split at hs
        all_goals
          simp only [Option.some.injEq, Prod.mk.injEq] at hs
          obtain ⟨h1, -⟩ := hs
          rw [← h1]
          exact ⟨hregs', hm⟩
      have hmemc : (field w 0 3 = 4 ∨ field w 0 3 = 5) → stateOk m' := by
        intro hk
        rw [step_dispatch_memImm hf hk] at hs
        rcases hmm : memImm m.pc m.regs m.mem w with _ | res
        · rw [hmm] at hs
          exact absurd hs (by simp)
        · obtain ⟨regs', mem', pc'⟩ := res
          rw [hmm] at hs
          simp only [Option.some.injEq, Prod.mk.injEq] at hs
          obtain ⟨h1, -⟩ := hs
          obtain ⟨hr', hm'⟩ := memImm_ok hr hm hmm
          rw [← h1]
          exact ⟨hr', hm'⟩
      have htwo : (field w 0 3 = 1 ∨ field w 0 3 = 7) → stateOk m' := by
        intro hk
        rw [step_dispatch_tworegImm hf hk] at hs
        simp only [Option.some.injEq, Prod.mk.injEq] at hs
        obtain ⟨h1, -⟩ := hs
        rw [← h1]
        exact ⟨tworegImm_regs_ok m.pc m.regs w hr, hm⟩
      rcases hcase with hk | hk | hk | hk | hk | hk | hk | hk
      · rw [step_dispatch_threereg hf hk] at hs
        simp only [Option.some.injEq, Prod.mk.injEq] at hs
        obtain ⟨h1, -⟩ := hs
        rw [← h1]
        exact ⟨threereg_regs_ok m.pc m.regs w hr, hm⟩
      · exact htwo (Or.inl hk)
      · exact hjump (Or.inl hk)
      · exact hjump (Or.inr hk)
      · exact hmemc (Or.inl hk)
      · exact hmemc (Or.inr hk)
      · rw [step_dispatch_jeq hf hk] at hs
        simp only [Option.some.injEq, Prod.mk.injEq] at hs
        obtain ⟨h1, -⟩ := hs
        rw [← h1]
        exact ⟨hr, hm⟩
      · exact htwo (Or.inr hk)

/-- The machine with pc 0 and all registers and memory cells zero. -/
def zeroMachine : Machine := ⟨0, fun _ => 0, fun _ => 0⟩

/-- The state of `zeroMachine` after one cycle; the fetched word 0 is `add $0, $0, $0`. -/
def zeroMachine' : Machine :=
  { zeroMachine with
      regs := Function.update zeroMachine.regs (fin3 0 9)
        ((zeroMachine.regs (fin3 0 3) + zeroMachine.regs (fin3 0 6)) % 2 ^ 16),
      pc := zeroMachine.pc + 1 }

/-- C4 witness: loading the single word 5 at address 0 keeps memory in range,
and stepping `zeroMachine` keeps its registers in range. -/
theorem c4_witness :
    wordRange (Function.update (fun _ => (0 : Int)) (⟨0, by decide⟩ : Fin MEM_SIZE)
      ((5 : Nat) : Int) ⟨0, by decide⟩) ∧
    wordRange (zeroMachine'.regs ⟨0, by decide⟩) := by
  constructor
  · exact c4_amended_word_ranges.1 [(0, 5)] (fun _ => 0)
      (Function.update (fun _ => 0) ⟨0, by decide⟩ ((5 : Nat) : Int))
      (by decide) (fun j => ⟨le_refl 0, by norm_num⟩) rfl ⟨0, by decide⟩
  · exact (c4_amended_word_ranges.2 zeroMachine zeroMachine' false (by decide)
      ⟨fun i => ⟨le_refl 0, by norm_num [zeroMachine]⟩,
       fun j => ⟨le_refl 0, by norm_num [zeroMachine]⟩⟩ rfl).1
      ⟨0, by decide⟩

end E20
